import Mathlib

/-!
Verification of merge_dive_data.py (oetproduction/ConcatenateData).

The script merges time-series sensor readings into a single time-aligned
table.  We give a shallow embedding of its core functions and prove the
documented properties about them.

Modelling conventions:
* a Python dict is an association list with unique keys; lookup takes the
  first matching entry, assignment replaces the first matching entry in
  place or appends a fresh entry at the end (Python dicts preserve
  insertion order);
* a Record is a dict from field name to field value (both strings);
* fallible operations (KeyError, IndexError, ValueError) are modelled with
  Option, none meaning the Python code raises;
* in extend_sealog_messages and generate_time_sequence the code converts
  the fixed-format timestamp strings YYYY-MM-DDTHH:MM:SS to datetime
  values, does second-level arithmetic on them and formats them back.
  Such strings are in order-preserving bijection with counts of seconds
  since a fixed epoch, so those two functions are embedded over Nat
  timestamps, with fromisoformat and strftime becoming the identity;
* Python str.split and str.strip are re-implemented structurally over the
  underlying character list (the library versions are not needed: only
  splitting on a single tab and trimming whitespace occur in the source).
-/

namespace MergeDive

/-! ## Python dict model -/

/-- A Record of the script: a dict from field name to field value. -/
abbrev Rec := List (String × String)

/-- The merged table of the script: a dict from timestamp string to Record. -/
abbrev Table := List (String × Rec)

/-- Dict lookup, first matching entry (Python d[k] when the key exists). -/
def alGet {β : Type} (l : List (String × β)) (k : String) : Option β :=
  (l.find? (fun p => p.1 == k)).map (fun p => p.2)

/-- Dict assignment d[k] = v: replace the first entry with key k in place,
or append a fresh entry (Python dicts keep insertion order). -/
def alSet {β : Type} : List (String × β) → String → β → List (String × β)
  | [], k, v => [(k, v)]
  | p :: l, k, v => if p.1 = k then (k, v) :: l else p :: alSet l k v

/-- Dict d.pop(k): the removed value together with the remaining entries,
or none when the key is absent (KeyError). -/
def alPop {β : Type} (l : List (String × β)) (k : String) :
    Option (β × List (String × β)) :=
  (alGet l k).map (fun v => (v, l.filter (fun p => !(p.1 == k))))

/-- Python dict union as in the expression that spreads the existing entry
and then the incoming record: start from a and assign every entry of b in
order, incoming values overwriting on key collision. -/
def dictUnion (a b : Rec) : Rec :=
  b.foldl (fun acc p => alSet acc p.1 p.2) a

/-- The keys of an association list are pairwise distinct.  Lists obtained
from Python dicts always satisfy this. -/
def nodupKeys {β : Type} (l : List (String × β)) : Prop :=
  (l.map Prod.fst).Nodup

instance {β : Type} (l : List (String × β)) : Decidable (nodupKeys l) :=
  inferInstanceAs (Decidable ((l.map Prod.fst).Nodup))

/-! ## String helpers used by the producers -/

/-- Worker for pySplitTab: accumulates the current chunk in reverse. -/
def splitTabAux : List Char → List Char → List (List Char)
  | [], acc => [acc.reverse]
  | c :: cs, acc =>
    if c = '\t' then acc.reverse :: splitTabAux cs []
    else splitTabAux cs (c :: acc)

/-- Python line.split of a tab character: chunks between tabs, the empty
string splitting to a one-element list. -/
def pySplitTab (s : String) : List String :=
  (splitTabAux s.data []).map (fun cs => ⟨cs⟩)

/-- Python str.strip: remove leading and trailing whitespace. -/
def pyStrip (s : String) : String :=
  ⟨((s.data.dropWhile Char.isWhitespace).reverse.dropWhile
      Char.isWhitespace).reverse⟩

/-! ## Record stream producers -/

/-- Per-sensor column schema from the sampled_file_formats table in main.
The filename regex is irrelevant to the parsing claims and is omitted. -/
structure SampledFileFormat where
  sensor : String
  cols : List String

def ctd_format : SampledFileFormat :=
  ⟨"ctd", ["time", "temp_c", "conductivity", "pressure_psi",
    "salinity_psu", "sound_velocity_ms"]⟩

def paro_format : SampledFileFormat :=
  ⟨"paro", ["time", "depth_m"]⟩

def usbl_format : SampledFileFormat :=
  ⟨"usbl", ["time", "lat", "lon"]⟩

def oxygen_format : SampledFileFormat :=
  ⟨"oxygen_uncompensated",
    ["time", "concentration_micromolar", "saturation_percent"]⟩

/-- Key under which a parsed column is stored: time is shared between all
sensors, every other column is prefixed with the sensor name. -/
def sensor_key (sensor column : String) : String :=
  if column = "time" then "time" else sensor ++ "_" ++ column

/-- Inner loop of parse_sampled_lines over the enumerated columns, starting
from index i: fields[i] out of range is an IndexError, modelled as none. -/
def parse_sampled_line_cols (fields : List String) (sensor : String) :
    List String → Nat → Rec → Option Rec
  | [], _, data_record => some data_record
  | column :: cols, i, data_record =>
    match fields[i]? with
    | none => none
    | some f =>
      parse_sampled_line_cols fields sensor cols (i + 1)
        (alSet data_record (sensor_key sensor column) (pyStrip f))

/-- Body of parse_sampled_lines for a single input line. -/
def parse_sampled_line (file_format : SampledFileFormat) (line : String) :
    Option Rec :=
  parse_sampled_line_cols (pySplitTab line) file_format.sensor
    file_format.cols 0 []

/-- Source: parse_sampled_lines(lines, file_format); an IndexError on any
line aborts the whole stream. -/
def parse_sampled_lines : List String → SampledFileFormat → Option (List Rec)
  | [], _ => some []
  | line :: lines, file_format =>
    match parse_sampled_line file_format line with
    | none => none
    | some data_record =>
      (parse_sampled_lines lines file_format).map
        (fun out => data_record :: out)

/-! ## Stream transformers -/

/-- Body of keep_only_fields for one record: a new record holding exactly
the named fields, KeyError (none) when one is absent. -/
def keep_only_fields_record (item : Rec) (field_names : List String) :
    Option Rec :=
  field_names.foldlM (fun new_item field_name =>
    (alGet item field_name).map (fun v => alSet new_item field_name v)) []

/-- Source: keep_only_fields(data_iter, field_names). -/
def keep_only_fields : List Rec → List String → Option (List Rec)
  | [], _ => some []
  | item :: rest, field_names =>
    match keep_only_fields_record item field_names with
    | none => none
    | some new_item =>
      (keep_only_fields rest field_names).map (fun out => new_item :: out)

/-- Body of rename_field for one record: item[new] = item.pop(old), a
KeyError (none) when the old field is absent. -/
def rename_field_record (item : Rec) (old_name new_name : String) :
    Option Rec :=
  (alPop item old_name).map (fun vr => alSet vr.2 new_name vr.1)

/-- Source: rename_field(data_iter, old_name, new_name). -/
def rename_field : List Rec → String → String → Option (List Rec)
  | [], _, _ => some []
  | item :: rest, old_name, new_name =>
    match rename_field_record item old_name new_name with
    | none => none
    | some item2 =>
      (rename_field rest old_name new_name).map (fun out => item2 :: out)

/-- Worker for truncate_time_to_seconds, carrying last_full_timestamp.
A record without a time field is a KeyError, modelled as none. -/
def truncGo (last_full_timestamp : Option String) :
    List Rec → Option (List Rec)
  | [] => some []
  | record :: rest =>
    match alGet record "time" with
    | none => none
    | some t =>
      if last_full_timestamp = some (t.take 19) then
        truncGo last_full_timestamp rest
      else
        (truncGo (some (t.take 19)) rest).map
          (fun out => alSet record "time" (t.take 19) :: out)

/-- Source: truncate_time_to_seconds(data_iter). -/
def truncate_time_to_seconds (data_iter : List Rec) : Option (List Rec) :=
  truncGo none data_iter

/-- Effect of truncate_time_to_seconds on one surviving record: its time
field is overwritten with the first 19 characters of its original value. -/
def truncRecord (record : Rec) : Rec :=
  alSet record "time" (((alGet record "time").getD "").take 19)

/-- The while loop of extend_sealog_messages: starting from
new_item_time = last_item_time, repeatedly increment by one second and
yield, while the pre-increment value is at most next_item_time.  The
returned list holds the yielded timestamps in order. -/
def extendLoop (new_item_time next_item_time : Nat) : List Nat :=
  if new_item_time ≤ next_item_time then
    (new_item_time + 1) :: extendLoop (new_item_time + 1) next_item_time
  else []
termination_by next_item_time + 1 - new_item_time
decreasing_by omega

/-- Second loop of extend_sealog_messages: for each further item, emit the
duplicates of the previous item produced by the while loop, then the item
itself, which becomes the new last_item. -/
def extendGo {α : Type} (last_item : Nat × α) :
    List (Nat × α) → List (Nat × α)
  | [] => []
  | item :: rest =>
    ((extendLoop last_item.1 item.1).map (fun t => (t, last_item.2))) ++
      item :: extendGo item rest

/-- Source: extend_sealog_messages(data_iter).  Timestamps are modelled as
second counts; the payload α stands for the remaining record fields, which
every duplicate copies unchanged. -/
def extend_sealog_messages {α : Type} : List (Nat × α) → List (Nat × α)
  | [] => []
  | item :: rest => item :: extendGo item rest

/-! ## Time sequence generator -/

/-- Minute component of a timestamp given as a second count. -/
def minuteOf (t : Nat) : Nat := t / 60 % 60

/-- Source: start_time.replace(second=0, minute=start_time.minute+1).  On
second counts this is t - t % 60 + 60; when the minute component is 59 the
replace call raises ValueError (minute 60 out of range), modelled none. -/
def round_to_next_minute (t : Nat) : Option Nat :=
  if minuteOf t = 59 then none else some (t - t % 60 + 60)

/-- Number of elements of the Python range(0, n, step) for step > 0. -/
def py_range_len (n step : Nat) : Nat := (n + step - 1) / step

/-- Source: generate_time_sequence(start, end, interval_seconds) over
second counts; max_seconds is the signed difference end - rounded start,
and range(0, int(max_seconds), interval_seconds) is empty when it is not
positive (Int.toNat clamps at zero). -/
def generate_time_sequence (startT endT interval_seconds : Nat) :
    Option (List Nat) :=
  (round_to_next_minute startT).map (fun (start_time : Nat) =>
    let max_seconds : Int := (endT : Int) - (start_time : Int)
    let len : Nat := py_range_len max_seconds.toNat interval_seconds
    (List.range' 0 len interval_seconds).map
      (fun i => start_time + i))

/-! ## Time-keyed merger -/

/-- One step of merge_data: key the record by its time field (KeyError when
absent), then either union into the existing entry, incoming fields
winning, or insert the record as-is. -/
def merge_one (merged_data : Table) (data_record : Rec) : Option Table :=
  match alGet data_record "time" with
  | none => none
  | some time_key =>
    match alGet merged_data time_key with
    | some existing =>
      some (alSet merged_data time_key (dictUnion existing data_record))
    | none => some (alSet merged_data time_key data_record)

/-- Inner loop of merge_data over one parsed stream. -/
def merge_list (merged_data : Table) : List Rec → Option Table
  | [] => some merged_data
  | data_record :: rest =>
    match merge_one merged_data data_record with
    | none => none
    | some t2 => merge_list t2 rest

/-- Outer loop of merge_data over the list of parsed streams. -/
def merge_data_go (merged_data : Table) : List (List Rec) → Option Table
  | [] => some merged_data
  | p :: ps =>
    match merge_list merged_data p with
    | none => none
    | some t2 => merge_data_go t2 ps

/-- Source: merge_data(parsers). -/
def merge_data (parsers : List (List Rec)) : Option Table :=
  merge_data_go [] parsers

/-- Source: first_time = min([key for key in merged_data]) in main; min of
an empty sequence raises ValueError, modelled as none. -/
def first_time_of (merged_data : Table) : Option String :=
  (merged_data.map Prod.fst).min?

/-- Invariant of the merged table: every stored record carries a time field
equal to its own key. -/
def TimeKeyInv (t : Table) : Prop :=
  ∀ k r, alGet t k = some r → alGet r "time" = some k

/-! ## Table writer -/

/-- The all_keys set of write_csv, as the list of keys encountered while
folding over the table (later deduplicated and sorted). -/
def all_keys_list (data : Table) : List String :=
  data.foldl (fun acc kv => acc ++ kv.2.map Prod.fst) []

/-- Source: sorted(list(all_keys)) with time moved to the front.  The
Python sort on the duplicate-free key set is modelled by insertionSort
under the lexicographic order on strings. -/
def sorted_keys (data : Table) : List String :=
  "time" :: (((all_keys_list data).dedup.insertionSort
    (fun a b => a ≤ b)).filter (fun k2 => !(k2 == "time")))

/-- Rendering of one record under the header: a field absent from the
record becomes the empty string (the DictWriter restval default). -/
def render_row (fieldnames : List String) (record : Rec) : List String :=
  fieldnames.map (fun c => (alGet record c).getD "")

/-- Row loop of write_csv: a data row per timeline timestamp present in the
table, and a warning (second component) per absent timestamp. -/
def write_rows (data : Table) (fieldnames : List String) :
    List String → List (List String) × List String
  | [] => ([], [])
  | timestamp :: rest =>
    let p := write_rows data fieldnames rest
    match alGet data timestamp with
    | some record => (render_row fieldnames record :: p.1, p.2)
    | none => (p.1, timestamp :: p.2)

/-- Source: write_csv(data, out_path, time_iter), abstracting the file as
the triple of header row, data rows and logged warnings. -/
def write_csv (data : Table) (time_iter : List String) :
    List String × List (List String) × List String :=
  (sorted_keys data,
    (write_rows data (sorted_keys data) time_iter).1,
    (write_rows data (sorted_keys data) time_iter).2)

/-- Second count of a time of day, for concrete timestamps in witnesses. -/
def secondsOfDay (h m s : Nat) : Nat := h * 3600 + m * 60 + s

theorem alGet_nil {β : Type} (k : String) :
    alGet ([] : List (String × β)) k = none := rfl

theorem alGet_cons {β : Type} (p : String × β) (l : List (String × β))
    (k : String) :
    alGet (p :: l) k = if p.1 = k then some p.2 else alGet l k := by
  by_cases h : p.1 = k
  · simp [alGet, List.find?, h]
  · simp only [alGet, List.find?]
    have hb : (p.1 == k) = false := by simpa using h
    simp [hb, h]

theorem alGet_eq_none_of_not_mem {β : Type} {l : List (String × β)}
    {k : String} (h : k ∉ l.map Prod.fst) : alGet l k = none := by
  induction l with
  | nil => rfl
  | cons p t ih =>
    rw [alGet_cons]
    simp only [List.map_cons, List.mem_cons] at h
    push_neg at h
    have h1 : ¬ p.1 = k := fun hh => h.1 hh.symm
    simp [h1, ih h.2]

theorem alGet_alSet_self {β : Type} (l : List (String × β)) (k : String)
    (v : β) : alGet (alSet l k v) k = some v := by
  induction l with
  | nil => simp [alSet, alGet_cons]
  | cons p t ih =>
    by_cases h : p.1 = k
    · simp [alSet, h, alGet_cons]
    · simp [alSet, h, alGet_cons, ih]

theorem alGet_alSet_ne {β : Type} (l : List (String × β)) (k k' : String)
    (v : β) (h : k' ≠ k) : alGet (alSet l k v) k' = alGet l k' := by
  have h2 : ¬ k = k' := fun hh => h hh.symm
  have h3 : ¬ k' = k := h
  induction l with
  | nil => simp [alSet, alGet_cons, alGet_nil, h2]
  | cons p t ih =>
    by_cases hp : p.1 = k
    · simp [alSet, hp, alGet_cons, h2, h3]
    · by_cases hp' : p.1 = k'
      · simp [alSet, hp, alGet_cons, hp', h3]
      · simp [alSet, hp, alGet_cons, hp', ih]

theorem alGet_dictUnion (a b : Rec) (hb : nodupKeys b) (k : String) :
    alGet (dictUnion a b) k = (alGet b k).or (alGet a k) := by
  induction b generalizing a with
  | nil => simp [dictUnion, alGet_nil, Option.or]
  | cons p t ih =>
    have hb' : nodupKeys t := by
      simpa [nodupKeys] using (List.nodup_cons.mp hb).2
    have hnm : p.1 ∉ t.map Prod.fst := by
      simpa [nodupKeys] using (List.nodup_cons.mp hb).1
    have hstep : dictUnion a (p :: t) = dictUnion (alSet a p.1 p.2) t := rfl
    rw [hstep, ih (alSet a p.1 p.2) hb', alGet_cons]
    by_cases h : p.1 = k
    · subst h
      rw [alGet_eq_none_of_not_mem hnm, alGet_alSet_self]
      simp [Option.or]
    · rw [alGet_alSet_ne _ _ _ _ (fun hh => h hh.symm)]
      simp [h]

/-! ## The extension loop in closed form -/

theorem extendLoop_eq_aux :
    ∀ (k a b : Nat), b + 1 - a = k →
      extendLoop a b = List.range' (a + 1) k 1 := by
  intro k
  induction k with
  | zero =>
    intro a b hk
    have h : ¬ a ≤ b := by omega
    rw [extendLoop, if_neg h]
    rfl
  | succ n ih =>
    intro a b hk
    have h : a ≤ b := by omega
    have h2 : b + 1 - (a + 1) = n := by omega
    rw [extendLoop, if_pos h, List.range'_succ, ih (a + 1) b h2]

theorem extendLoop_eq (a b : Nat) :
    extendLoop a b = List.range' (a + 1) (b + 1 - a) 1 :=
  extendLoop_eq_aux (b + 1 - a) a b rfl

/-- C1: for consecutive records A at Ta and B at Tb with Ta < Tb the
transformer emits A, then one duplicate of A per second with timestamps
Ta+1, Ta+2, ..., and then B; however the duplicates number Tb - Ta + 1 and
the last one carries timestamp Tb + 1, one second PAST Tb, because the
while loop increments before yielding.  This is the amended form of the
claim (the claim predicted Tb - Ta duplicates ending exactly at Tb). -/
theorem extend_forward_overshoots_next {α : Type} (ta tb : Nat) (x y : α)
    (rest : List (Nat × α)) (h : ta < tb) :
    extend_sealog_messages ((ta, x) :: (tb, y) :: rest) =
      (ta, x) ::
        (((List.range' (ta + 1) (tb - ta + 1) 1).map (fun t => (t, x))) ++
          (tb, y) :: extendGo (tb, y) rest) ∧
    (List.range' (ta + 1) (tb - ta + 1) 1).length = tb - ta + 1 ∧
    (List.range' (ta + 1) (tb - ta + 1) 1).getLast? = some (tb + 1) := by
  have hgo : extendGo (ta, x) ((tb, y) :: rest) =
      ((extendLoop ta tb).map (fun t => (t, x))) ++
        (tb, y) :: extendGo (tb, y) rest := rfl
  have hn : tb + 1 - ta = tb - ta + 1 := by omega
  refine ⟨?_, by simp, ?_⟩
  · show (ta, x) :: extendGo (ta, x) ((tb, y) :: rest) = _
    rw [hgo, extendLoop_eq, hn]
  · have hc : List.range' (ta + 1) (tb - ta + 1) 1 =
        List.range' (ta + 1) (tb - ta) 1 ++ [ta + 1 + 1 * (tb - ta)] :=
      List.range'_concat (ta + 1) (tb - ta)
    have hv : ta + 1 + 1 * (tb - ta) = tb + 1 := by omega
    rw [hc, hv, List.getLast?_concat]

/-- C1 witness: the amended statement at Ta = 0, Tb = 2. -/
theorem extend_forward_overshoots_next_witness :
    (0 : Nat) < 2 ∧
    (extend_sealog_messages [((0 : Nat), "A"), (2, "B")] =
      ((0 : Nat), "A") ::
        (((List.range' (0 + 1) (2 - 0 + 1) 1).map (fun t => (t, "A"))) ++
          ((2 : Nat), "B") :: extendGo ((2 : Nat), "B") []) ∧
    (List.range' (0 + 1) (2 - 0 + 1) 1).length = 2 - 0 + 1 ∧
    (List.range' (0 + 1) (2 - 0 + 1) 1).getLast? = some (2 + 1)) :=
  ⟨by decide, extend_forward_overshoots_next 0 2 "A" "B" [] (by decide)⟩

/-- C1 counterexample: at Ta = 0, Tb = 2 the code emits three duplicates,
at seconds 1, 2 and 3, so the output differs from the A, dup(1), dup(2), B
shape the claim predicts (two duplicates ending exactly at Tb = 2). -/
theorem extend_forward_claim_false :
    extend_sealog_messages [((0 : Nat), "A"), (2, "B")] =
      [(0, "A"), (1, "A"), (2, "A"), (3, "A"), (2, "B")] ∧
    extend_sealog_messages [((0 : Nat), "A"), (2, "B")] ≠
      [(0, "A"), (1, "A"), (2, "A"), (2, "B")] := by
  have h : extendLoop 0 2 = [1, 2, 3] := by rw [extendLoop_eq]; rfl
  refine ⟨?_, ?_⟩ <;> simp [extend_sealog_messages, extendGo, h]

/-- C3 (amended): for consecutive records A at Ta and B at Tb the code
always terminates; with Tb < Ta it emits no synthetic record before B, but
with Tb = Ta it emits exactly one synthetic duplicate of A, at Ta + 1,
before B (the claim predicted zero for every Tb less than or equal Ta). -/
theorem extend_forward_nonincreasing {α : Type} (ta tb : Nat) (x y : α)
    (rest : List (Nat × α)) (h : tb ≤ ta) :
    extendGo (ta, x) ((tb, y) :: rest) =
      (if tb = ta then [(ta + 1, x)] else []) ++
        (tb, y) :: extendGo (tb, y) rest := by
  have hgo : extendGo (ta, x) ((tb, y) :: rest) =
      ((extendLoop ta tb).map (fun t => (t, x))) ++
        (tb, y) :: extendGo (tb, y) rest := rfl
  rw [hgo, extendLoop_eq]
  by_cases he : tb = ta
  · subst he
    have h1 : tb + 1 - tb = 1 := by omega
    rw [h1, if_pos rfl]
    rfl
  · have h0 : tb + 1 - ta = 0 := by omega
    rw [h0, if_neg he]
    rfl

/-- C3 witness: the amended statement at Ta = 5, Tb = 4. -/
theorem extend_forward_nonincreasing_witness :
    (4 : Nat) ≤ 5 ∧
    extendGo ((5 : Nat), "A") [((4 : Nat), "B")] =
      (if (4 : Nat) = 5 then [((5 : Nat) + 1, "A")] else []) ++
        ((4 : Nat), "B") :: extendGo ((4 : Nat), "B") [] :=
  ⟨by decide, extend_forward_nonincreasing 5 4 "A" "B" [] (by decide)⟩

/-- C3 counterexample: with Tb = Ta = 5 the code emits one synthetic
record, at second 6, between A and B, where the claim predicts zero. -/
theorem extend_forward_equal_times_claim_false :
    extend_sealog_messages [((5 : Nat), "A"), (5, "B")] =
      [(5, "A"), (6, "A"), (5, "B")] ∧
    extend_sealog_messages [((5 : Nat), "A"), (5, "B")] ≠
      [(5, "A"), (5, "B")] := by
  have h : extendLoop 5 5 = [6] := by rw [extendLoop_eq]; rfl
  refine ⟨?_, ?_⟩ <;> simp [extend_sealog_messages, extendGo, h]

/-! ## Time sequence generator claims -/

theorem py_range_len_eq_zero_iff (n i : Nat) (hi : 0 < i) :
    py_range_len n i = 0 ↔ n = 0 := by
  unfold py_range_len
  rw [Nat.div_eq_zero_iff hi]
  omega

/-- C2 (amended with the proviso that the minute component of the earliest
timestamp is not 59, in which case the rounding step raises instead): the
generator emits timestamps starting at the earliest timestamp with seconds
zeroed and minute incremented, strictly increasing in steps of the
interval, all strictly below the latest timestamp, and the sequence is
empty exactly when that rounded start reaches or passes the latest
timestamp. -/
theorem generate_time_sequence_spec (s e i : Nat) (hm : minuteOf s ≠ 59)
    (hi : 0 < i) :
    ∃ l, generate_time_sequence s e i = some l ∧
      (l = [] ↔ e ≤ s - s % 60 + 60) ∧
      l.head? = (if e ≤ s - s % 60 + 60 then none
        else some (s - s % 60 + 60)) ∧
      (∀ j, ∀ hj : j + 1 < l.length,
        l.get ⟨j, Nat.lt_of_succ_lt hj⟩ + i = l.get ⟨j + 1, hj⟩) ∧
      (∀ x ∈ l, x < e) := by
  have hr : round_to_next_minute s = some (s - s % 60 + 60) := by
    unfold round_to_next_minute
    rw [if_neg hm]
  set s2 := s - s % 60 + 60 with hs2
  set m := ((e : Int) - (s2 : Int)).toNat with hmdef
  have hm2 : m = e - s2 := by omega
  set len := py_range_len m i with hlendef
  have hlen0 : len = 0 ↔ e ≤ s2 := by
    rw [hlendef, py_range_len_eq_zero_iff m i hi]
    omega
  refine ⟨(List.range' 0 len i).map (fun j => s2 + j), ?_, ?_, ?_, ?_, ?_⟩
  · simp only [generate_time_sequence, hr, Option.map_some']
  · rw [List.map_eq_nil_iff, List.range'_eq_nil]
    exact hlen0
  · by_cases hc : e ≤ s2
    · have h0 : len = 0 := hlen0.mpr hc
      rw [h0, if_pos hc]
      rfl
    · have hne : len ≠ 0 := fun h0 => hc (hlen0.mp h0)
      obtain ⟨k, hk⟩ := Nat.exists_eq_succ_of_ne_zero hne
      rw [hk, List.range'_succ, if_neg hc]
      simp
  · intro j hj
    simp only [List.get_eq_getElem, List.getElem_map, List.getElem_range']
    ring
  · intro x hx
    rw [List.mem_map] at hx
    obtain ⟨y, hy, rfl⟩ := hx
    rw [List.mem_range'] at hy
    obtain ⟨k, hk, rfl⟩ := hy
    have h1 : (k + 1) * i ≤ len * i := Nat.mul_le_mul_right i hk
    have h2 : len * i ≤ m + i - 1 := by
      rw [hlendef]
      unfold py_range_len
      exact Nat.div_mul_le_self (m + i - 1) i
    have h3 : (k + 1) * i = i * k + i := by ring
    omega

/-- C2 witness: the spec example with start 19:00:04 (second count 68404)
and end 19:02:10 (68530) at interval 5; the rounded start is 19:01:00. -/
theorem generate_time_sequence_spec_witness :
    (minuteOf 68404 ≠ 59 ∧ (0 : Nat) < 5 ∧
      68404 - 68404 % 60 + 60 = secondsOfDay 19 1 0) ∧
    (∃ l, generate_time_sequence 68404 68530 5 = some l ∧
      (l = [] ↔ 68530 ≤ 68404 - 68404 % 60 + 60) ∧
      l.head? = (if 68530 ≤ 68404 - 68404 % 60 + 60 then none
        else some (68404 - 68404 % 60 + 60)) ∧
      (∀ j, ∀ hj : j + 1 < l.length,
        l.get ⟨j, Nat.lt_of_succ_lt hj⟩ + 5 = l.get ⟨j + 1, hj⟩) ∧
      (∀ x ∈ l, x < 68530)) :=
  ⟨⟨by decide, by decide, by decide⟩,
    generate_time_sequence_spec 68404 68530 5 (by decide) (by decide)⟩

/-- C2 counterexample: with earliest timestamp 19:59:30 (second count
71970, minute component 59) and latest 20:06:40 (72400), the rounded start
20:00:00 (72000) lies below the end, so the claim demands a nonempty
emitted sequence starting there; the code instead fails in the
minute-rounding step and emits nothing at all. -/
theorem generate_time_sequence_claim_false :
    minuteOf 71970 = 59 ∧ 71970 - 71970 % 60 + 60 < 72400 ∧
    generate_time_sequence 71970 72400 5 = none := by
  refine ⟨by decide, by decide, ?_⟩
  unfold generate_time_sequence round_to_next_minute
  rw [if_pos (by decide)]
  rfl

/-- C9: whenever the earliest timestamp has minute component 59, the
generator raises ValueError in its minute-rounding step (datetime.replace
with minute 60) before emitting any timestamp. -/
theorem generate_time_sequence_minute59_raises (s e i : Nat)
    (h : minuteOf s = 59) : generate_time_sequence s e i = none := by
  unfold generate_time_sequence round_to_next_minute
  rw [if_pos h]
  rfl

/-- C9 witness: earliest timestamp 19:59:30 (second count 71970). -/
theorem generate_time_sequence_minute59_raises_witness :
    minuteOf 71970 = 59 ∧ generate_time_sequence 71970 72300 5 = none :=
  ⟨by decide, generate_time_sequence_minute59_raises 71970 72300 5 (by decide)⟩

/-! ## Merger claims -/

/-- C4: merge_data keys each record by its time field; with no existing
entry the record is inserted as-is, otherwise the stored entry becomes the
shallow union of the existing entry and the incoming record, the incoming
value winning on every field-name collision (Option.or of the two lookups)
and no field of either input lost; entries under other keys are
untouched. -/
theorem merge_one_insert (t : Table) (r : Rec) (k : String)
    (htime : alGet r "time" = some k) (hx : alGet t k = none) :
    merge_one t r = some (alSet t k r) := by
  simp only [merge_one, htime, hx]

theorem merge_one_union (t : Table) (r : Rec) (k : String) (old : Rec)
    (htime : alGet r "time" = some k) (hx : alGet t k = some old) :
    merge_one t r = some (alSet t k (dictUnion old r)) := by
  simp only [merge_one, htime, hx]

theorem merge_one_spec (t : Table) (r : Rec) (k : String)
    (htime : alGet r "time" = some k) (hr : nodupKeys r) :
    ∃ t2, merge_one t r = some t2 ∧
      (∀ k', k' ≠ k → alGet t2 k' = alGet t k') ∧
      (alGet t k = none → alGet t2 k = some r) ∧
      (∀ old, alGet t k = some old →
        alGet t2 k = some (dictUnion old r) ∧
        (∀ f, alGet (dictUnion old r) f = (alGet r f).or (alGet old f))) := by
  rcases hx : alGet t k with _ | old0
  · refine ⟨alSet t k r, merge_one_insert t r k htime hx, ?_, ?_, ?_⟩
    · intro k' hk'
      exact alGet_alSet_ne t k k' r hk'
    · intro _
      exact alGet_alSet_self t k r
    · intro old hold
      exact absurd hold (by simp)
  · refine ⟨alSet t k (dictUnion old0 r),
      merge_one_union t r k old0 htime hx, ?_, ?_, ?_⟩
    · intro k' hk'
      exact alGet_alSet_ne t k k' (dictUnion old0 r) hk'
    · intro hnone
      exact absurd hnone (by simp)
    · intro old hold
      have hoo : old = old0 := by injection hold with hh; exact hh.symm
      subst hoo
      exact ⟨alGet_alSet_self t k (dictUnion old r),
        fun f => alGet_dictUnion old r hr f⟩

/-- C4 witness: a table holding a CTD record at key t1 merged with an
incoming paro record at the same timestamp. -/
theorem merge_one_spec_witness :
    (alGet [("time", "t1"), ("paro_depth_m", "7")] "time" = some "t1" ∧
      nodupKeys [("time", "t1"), ("paro_depth_m", "7")]) ∧
    (∃ t2, merge_one [("t1", [("time", "t1"), ("ctd_temp_c", "4.2")])]
        [("time", "t1"), ("paro_depth_m", "7")] = some t2 ∧
      (∀ k', k' ≠ "t1" →
        alGet t2 k' =
          alGet [("t1", [("time", "t1"), ("ctd_temp_c", "4.2")])] k') ∧
      (alGet [("t1", [("time", "t1"), ("ctd_temp_c", "4.2")])] "t1" = none →
        alGet t2 "t1" = some [("time", "t1"), ("paro_depth_m", "7")]) ∧
      (∀ old,
        alGet [("t1", [("time", "t1"), ("ctd_temp_c", "4.2")])] "t1" =
          some old →
        alGet t2 "t1" =
          some (dictUnion old [("time", "t1"), ("paro_depth_m", "7")]) ∧
        (∀ f, alGet (dictUnion old [("time", "t1"), ("paro_depth_m", "7")]) f =
          (alGet [("time", "t1"), ("paro_depth_m", "7")] f).or
            (alGet old f)))) :=
  ⟨⟨by decide, by decide⟩,
    merge_one_spec [("t1", [("time", "t1"), ("ctd_temp_c", "4.2")])]
      [("time", "t1"), ("paro_depth_m", "7")] "t1" (by decide) (by decide)⟩

theorem merge_one_time_inv (t : Table) (r : Rec) (t2 : Table)
    (hinv : TimeKeyInv t) (hr : nodupKeys r)
    (hsome : (alGet r "time").isSome) (h : merge_one t r = some t2) :
    TimeKeyInv t2 := by
  obtain ⟨k, hk⟩ := Option.isSome_iff_exists.mp hsome
  rcases hx : alGet t k with _ | old
  · rw [merge_one_insert t r k hk hx] at h
    have ht2 : t2 = alSet t k r := by injection h with hh; exact hh.symm
    subst ht2
    intro k' r' hget
    by_cases hkk : k' = k
    · subst hkk
      rw [alGet_alSet_self] at hget
      have : r' = r := by injection hget with hh; exact hh.symm
      subst this
      exact hk
    · rw [alGet_alSet_ne t k k' r hkk] at hget
      exact hinv k' r' hget
  · rw [merge_one_union t r k old hk hx] at h
    have ht2 : t2 = alSet t k (dictUnion old r) := by
      injection h with hh; exact hh.symm
    subst ht2
    intro k' r' hget
    by_cases hkk : k' = k
    · subst hkk
      rw [alGet_alSet_self] at hget
      have : r' = dictUnion old r := by injection hget with hh; exact hh.symm
      subst this
      rw [alGet_dictUnion old r hr "time", hk]
      rfl
    · rw [alGet_alSet_ne t k k' (dictUnion old r) hkk] at hget
      exact hinv k' r' hget

theorem merge_list_time_inv (p : List Rec) : ∀ t : Table, TimeKeyInv t →
    (∀ r ∈ p, (alGet r "time").isSome ∧ nodupKeys r) →
    ∃ t2, merge_list t p = some t2 ∧ TimeKeyInv t2 := by
  induction p with
  | nil => exact fun t ht _ => ⟨t, rfl, ht⟩
  | cons r rest ih =>
    intro t ht hall
    have h1 := hall r (by simp)
    obtain ⟨k, hk⟩ := Option.isSome_iff_exists.mp h1.1
    have hex : ∃ t1, merge_one t r = some t1 := by
      rcases hx : alGet t k with _ | old
      · exact ⟨_, merge_one_insert t r k hk hx⟩
      · exact ⟨_, merge_one_union t r k old hk hx⟩
    obtain ⟨t1, ht1⟩ := hex
    have hinv1 : TimeKeyInv t1 := merge_one_time_inv t r t1 ht h1.2 h1.1 ht1
    obtain ⟨t2, ht2, hinv2⟩ :=
      ih t1 hinv1 (fun r2 hr2 => hall r2 (by simp [hr2]))
    exact ⟨t2, by simp [merge_list, ht1, ht2], hinv2⟩

theorem merge_data_go_time_inv (ps : List (List Rec)) : ∀ t : Table,
    TimeKeyInv t →
    (∀ p ∈ ps, ∀ r ∈ p, (alGet r "time").isSome ∧ nodupKeys r) →
    ∃ t2, merge_data_go t ps = some t2 ∧ TimeKeyInv t2 := by
  induction ps with
  | nil => exact fun t ht _ => ⟨t, rfl, ht⟩
  | cons p rest ih =>
    intro t ht hall
    obtain ⟨t1, ht1, hinv1⟩ := merge_list_time_inv p t ht (hall p (by simp))
    obtain ⟨t2, ht2, hinv2⟩ :=
      ih t1 hinv1 (fun q hq => hall q (by simp [hq]))
    exact ⟨t2, by simp [merge_data_go, ht1, ht2], hinv2⟩

/-- C5: when every consumed record carries a time field (and, being a
Python dict, has pairwise distinct field names), the merged table
satisfies TimeKeyInv: every stored record carries a time field equal to
its own key; moreover every single merge_one step (insertion or union)
preserves that invariant. -/
theorem merge_data_time_key_invariant (ps : List (List Rec))
    (h : ∀ p ∈ ps, ∀ r ∈ p, (alGet r "time").isSome ∧ nodupKeys r) :
    (∃ t, merge_data ps = some t ∧ TimeKeyInv t) ∧
    (∀ (t : Table) (r : Rec) (t2 : Table), TimeKeyInv t →
      (alGet r "time").isSome → nodupKeys r → merge_one t r = some t2 →
      TimeKeyInv t2) := by
  constructor
  · have hbase : TimeKeyInv [] := by
      intro k r hkr
      rw [alGet_nil] at hkr
      exact absurd hkr (by simp)
    obtain ⟨t, ht, hinv⟩ := merge_data_go_time_inv ps [] hbase h
    exact ⟨t, ht, hinv⟩
  · intro t r t2 hinv hsome hnd hmo
    exact merge_one_time_inv t r t2 hinv hnd hsome hmo

/-- C5 witness: two single-record streams sharing the timestamp t1. -/
theorem merge_data_time_key_invariant_witness :
    (∀ p ∈ ([[[("time", "t1"), ("a", "1")]], [[("time", "t1"), ("b", "2")]]] :
        List (List Rec)), ∀ r ∈ p, (alGet r "time").isSome ∧ nodupKeys r) ∧
    ((∃ t, merge_data
        [[[("time", "t1"), ("a", "1")]], [[("time", "t1"), ("b", "2")]]] =
        some t ∧ TimeKeyInv t) ∧
    (∀ (t : Table) (r : Rec) (t2 : Table), TimeKeyInv t →
      (alGet r "time").isSome → nodupKeys r → merge_one t r = some t2 →
      TimeKeyInv t2)) :=
  ⟨by decide,
    merge_data_time_key_invariant
      [[[("time", "t1"), ("a", "1")]], [[("time", "t1"), ("b", "2")]]]
      (by decide)⟩

/-- C10: when no parser yields any record the merged table is empty, and
the min() computation in main over the empty key list fails (ValueError)
instead of writing an empty table. -/
theorem merge_data_empty_inputs (ps : List (List Rec))
    (h : ∀ p ∈ ps, p = []) :
    merge_data ps = some [] ∧ first_time_of [] = none := by
  constructor
  · unfold merge_data
    have hgo : ∀ ps2 : List (List Rec), (∀ p ∈ ps2, p = []) →
        merge_data_go [] ps2 = some [] := by
      intro ps2
      induction ps2 with
      | nil => exact fun _ => rfl
      | cons p rest ih =>
        intro hall
        have hp : p = [] := hall p (by simp)
        subst hp
        exact ih (fun q hq => hall q (by simp [hq]))
    exact hgo ps h
  · rfl

/-- C10 witness: two recognized but empty input streams. -/
theorem merge_data_empty_inputs_witness :
    (∀ p ∈ ([[], []] : List (List Rec)), p = []) ∧
    (merge_data [[], []] = some [] ∧ first_time_of [] = none) :=
  ⟨by decide, merge_data_empty_inputs [[], []] (by decide)⟩

/-! ## Truncation claims -/

theorem truncGo_destutter (l : List Rec) :
    ∀ (a : Rec) (s : String), (∀ r ∈ l, (alGet r "time").isSome) →
      alGet a "time" = some s →
      ∃ out, truncGo (some s) l = some out ∧
        List.destutter' (fun x y : Rec => alGet x "time" ≠ alGet y "time") a
          (l.map truncRecord) = a :: out := by
  induction l with
  | nil =>
    intro a s _ _
    exact ⟨[], rfl, List.destutter'_nil _⟩
  | cons r rest ih =>
    intro a s h ha
    obtain ⟨t, ht⟩ := Option.isSome_iff_exists.mp (h r (by simp))
    have hrest : ∀ r2 ∈ rest, (alGet r2 "time").isSome :=
      fun r2 hr2 => h r2 (by simp [hr2])
    have htr : truncRecord r = alSet r "time" (t.take 19) := by
      unfold truncRecord
      rw [ht]
      rfl
    have hbt : alGet (truncRecord r) "time" = some (t.take 19) := by
      rw [htr]
      exact alGet_alSet_self r "time" (t.take 19)
    by_cases hif : (some s : Option String) = some (t.take 19)
    · have heq1 : truncGo (some s) (r :: rest) = truncGo (some s) rest := by
        simp only [truncGo, ht, if_pos hif]
      have hR : ¬ (alGet a "time" ≠ alGet (truncRecord r) "time") := by
        rw [ha, hbt]
        simpa using hif
      obtain ⟨out, hout, hdes⟩ := ih a s hrest ha
      refine ⟨out, heq1.trans hout, ?_⟩
      rw [List.map_cons, List.destutter'_cons, if_neg hR]
      exact hdes
    · have heq1 : truncGo (some s) (r :: rest) =
          (truncGo (some (t.take 19)) rest).map
            (fun out2 => alSet r "time" (t.take 19) :: out2) := by
        simp only [truncGo, ht, if_neg hif]
      have hR : alGet a "time" ≠ alGet (truncRecord r) "time" := by
        rw [ha, hbt]
        simpa using hif
      obtain ⟨out, hout, hdes⟩ := ih (truncRecord r) (t.take 19) hrest hbt
      refine ⟨truncRecord r :: out, ?_, ?_⟩
      · rw [heq1, hout]
        simp only [Option.map_some']
        rw [htr]
      · rw [List.map_cons, List.destutter'_cons, if_pos hR, hdes]

/-- C6: the output of truncate_time_to_seconds is exactly the
keep-first-of-each-run deduplication (List.destutter under inequality of
time fields) of the input records with their time fields truncated to the
first 19 characters: the first record of every run of equal truncated
seconds survives, later records of the same run are dropped, and no two
consecutive output records share a truncated timestamp. -/
theorem truncate_time_to_seconds_spec (l : List Rec)
    (h : ∀ r ∈ l, (alGet r "time").isSome) :
    ∃ out, truncate_time_to_seconds l = some out ∧
      out = List.destutter (fun x y : Rec => alGet x "time" ≠ alGet y "time")
        (l.map truncRecord) ∧
      List.Sublist out (l.map truncRecord) ∧
      List.Chain' (fun x y : Rec => alGet x "time" ≠ alGet y "time") out := by
  cases l with
  | nil => exact ⟨[], rfl, rfl, List.nil_sublist [], List.chain'_nil⟩
  | cons r rest =>
    obtain ⟨t, ht⟩ := Option.isSome_iff_exists.mp (h r (by simp))
    have hrest : ∀ r2 ∈ rest, (alGet r2 "time").isSome :=
      fun r2 hr2 => h r2 (by simp [hr2])
    have htr : truncRecord r = alSet r "time" (t.take 19) := by
      unfold truncRecord
      rw [ht]
      rfl
    have hbt : alGet (truncRecord r) "time" = some (t.take 19) := by
      rw [htr]
      exact alGet_alSet_self r "time" (t.take 19)
    obtain ⟨out, hout, hdes⟩ :=
      truncGo_destutter rest (truncRecord r) (t.take 19) hrest hbt
    have hfull : truncate_time_to_seconds (r :: rest) =
        some (truncRecord r :: out) := by
      have hnone : ¬ ((none : Option String) = some (t.take 19)) := by simp
      unfold truncate_time_to_seconds
      simp only [truncGo, ht, if_neg hnone]
      rw [hout]
      simp only [Option.map_some']
      rw [htr]
    have hdc : List.destutter
        (fun x y : Rec => alGet x "time" ≠ alGet y "time")
        ((r :: rest).map truncRecord) = truncRecord r :: out := by
      rw [List.map_cons]
      show List.destutter' _ (truncRecord r) (rest.map truncRecord) = _
      exact hdes
    refine ⟨truncRecord r :: out, hfull, hdc.symm, ?_, ?_⟩
    · rw [← hdc]
      exact List.destutter_sublist _ _
    · rw [← hdc]
      exact List.destutter_is_chain' _ _

/-- C6 witness: three records, the middle one sharing its truncated second
with the first; only the first of that run survives. -/
theorem truncate_time_to_seconds_spec_witness :
    (∀ r ∈ ([[("time", "2023-10-28T19:00:04.123"), ("ctd_temp_c", "4.2")],
        [("time", "2023-10-28T19:00:04.9")],
        [("time", "2023-10-28T19:00:05")]] : List Rec),
      (alGet r "time").isSome) ∧
    (∃ out, truncate_time_to_seconds
        [[("time", "2023-10-28T19:00:04.123"), ("ctd_temp_c", "4.2")],
         [("time", "2023-10-28T19:00:04.9")],
         [("time", "2023-10-28T19:00:05")]] = some out ∧
      out = List.destutter (fun x y : Rec => alGet x "time" ≠ alGet y "time")
        (([[("time", "2023-10-28T19:00:04.123"), ("ctd_temp_c", "4.2")],
           [("time", "2023-10-28T19:00:04.9")],
           [("time", "2023-10-28T19:00:05")]] : List Rec).map truncRecord) ∧
      List.Sublist out
        (([[("time", "2023-10-28T19:00:04.123"), ("ctd_temp_c", "4.2")],
           [("time", "2023-10-28T19:00:04.9")],
           [("time", "2023-10-28T19:00:05")]] : List Rec).map truncRecord) ∧
      List.Chain' (fun x y : Rec => alGet x "time" ≠ alGet y "time") out) :=
  ⟨by decide, truncate_time_to_seconds_spec _ (by decide)⟩

/-! ## Error-handling claims -/

theorem parse_sampled_line_cols_oob (fields : List String) (sensor : String) :
    ∀ (cols : List String) (i : Nat) (racc : Rec),
      fields.length < i + cols.length → i ≤ fields.length →
      parse_sampled_line_cols fields sensor cols i racc = none := by
  intro cols
  induction cols with
  | nil =>
    intro i racc h1 h2
    exact absurd h1 (by simp; omega)
  | cons c cs ih =>
    intro i racc h1 h2
    by_cases hi : i < fields.length
    · have hsome : fields[i]? = some (fields.get ⟨i, hi⟩) := by
        rw [List.getElem?_eq_getElem hi]
        rfl
      simp only [parse_sampled_line_cols, hsome]
      exact ih (i + 1) _ (by simp at h1 ⊢; omega) (by omega)
    · have hnone : fields[i]? = none := List.getElem?_eq_none (by omega)
      simp only [parse_sampled_line_cols, hnone]

theorem parse_sampled_line_short (fmt : SampledFileFormat) (line : String)
    (h : (pySplitTab line).length < fmt.cols.length) :
    parse_sampled_line fmt line = none := by
  unfold parse_sampled_line
  exact parse_sampled_line_cols_oob (pySplitTab line) fmt.sensor
    fmt.cols 0 [] (by omega) (by omega)

theorem parse_sampled_lines_short :
    ∀ (lines : List String) (fmt : SampledFileFormat) (line : String),
      line ∈ lines → (pySplitTab line).length < fmt.cols.length →
      parse_sampled_lines lines fmt = none := by
  intro lines
  induction lines with
  | nil =>
    intro fmt line h _
    exact absurd h (by simp)
  | cons l0 rest ih =>
    intro fmt line hmem hshort
    rcases List.mem_cons.mp hmem with he | hm
    · subst he
      simp only [parse_sampled_lines, parse_sampled_line_short fmt line hshort]
    · cases hpl : parse_sampled_line fmt l0 with
      | none => simp only [parse_sampled_lines, hpl]
      | some d =>
        simp only [parse_sampled_lines, hpl]
        rw [ih fmt line hm hshort]
        rfl

theorem keep_only_fields_record_aux (item : Rec) :
    ∀ (names : List String) (acc : Rec) (n : String), n ∈ names →
      alGet item n = none →
      names.foldlM (fun new_item field_name =>
        (alGet item field_name).map
          (fun v => alSet new_item field_name v)) acc = none := by
  intro names
  induction names with
  | nil =>
    intro acc n h _
    exact absurd h (by simp)
  | cons m ms ih =>
    intro acc n hmem hnone
    rcases List.mem_cons.mp hmem with he | hm
    · subst he
      simp [List.foldlM_cons, hnone]
    · cases hg : alGet item m with
      | none => simp [List.foldlM_cons, hg]
      | some v =>
        simp only [List.foldlM_cons, hg, Option.map_some', Option.some_bind]
        exact ih (alSet acc m v) n hm hnone

theorem keep_only_fields_record_none (item : Rec) (names : List String)
    (n : String) (hmem : n ∈ names) (hnone : alGet item n = none) :
    keep_only_fields_record item names = none :=
  keep_only_fields_record_aux item names [] n hmem hnone

theorem keep_only_fields_none :
    ∀ (l : List Rec) (names : List String) (r : Rec) (n : String),
      r ∈ l → n ∈ names → alGet r n = none →
      keep_only_fields l names = none := by
  intro l
  induction l with
  | nil =>
    intro names r n h _ _
    exact absurd h (by simp)
  | cons r0 rest ih =>
    intro names r n hmem hn hnone
    rcases List.mem_cons.mp hmem with he | hm
    · subst he
      simp only [keep_only_fields,
        keep_only_fields_record_none r names n hn hnone]
    · cases hk : keep_only_fields_record r0 names with
      | none => simp only [keep_only_fields, hk]
      | some item2 =>
        simp only [keep_only_fields, hk]
        rw [ih names r n hm hn hnone]
        rfl

theorem rename_field_record_none (item : Rec) (old_name new_name : String)
    (h : alGet item old_name = none) :
    rename_field_record item old_name new_name = none := by
  unfold rename_field_record alPop
  rw [h]
  rfl

theorem rename_field_none :
    ∀ (l : List Rec) (old_name new_name : String) (r : Rec),
      r ∈ l → alGet r old_name = none →
      rename_field l old_name new_name = none := by
  intro l
  induction l with
  | nil =>
    intro _ _ r h _
    exact absurd h (by simp)
  | cons r0 rest ih =>
    intro old_name new_name r hmem hnone
    rcases List.mem_cons.mp hmem with he | hm
    · subst he
      simp only [rename_field,
        rename_field_record_none r old_name new_name hnone]
    · cases hk : rename_field_record r0 old_name new_name with
      | none => simp only [rename_field, hk]
      | some item2 =>
        simp only [rename_field, hk]
        rw [ih old_name new_name r hm hnone]
        rfl

/-- C7: a short input line (fewer tab-separated fields than the schema has
columns) makes the sampled-line producer fail with an IndexError, a record
missing a projected field makes keep_only_fields fail with a KeyError and
a record missing the field to rename makes rename_field fail with a
KeyError; in the embedding the whole stream result is none, modelling the
immediate abort with no output written. -/
theorem parse_and_transform_errors :
    (∀ (lines : List String) (fmt : SampledFileFormat) (line : String),
      line ∈ lines → (pySplitTab line).length < fmt.cols.length →
      parse_sampled_lines lines fmt = none) ∧
    (∀ (l : List Rec) (names : List String) (r : Rec) (n : String),
      r ∈ l → n ∈ names → alGet r n = none →
      keep_only_fields l names = none) ∧
    (∀ (l : List Rec) (old_name new_name : String) (r : Rec),
      r ∈ l → alGet r old_name = none →
      rename_field l old_name new_name = none) :=
  ⟨parse_sampled_lines_short, keep_only_fields_none, rename_field_none⟩

/-- C7 witness: a tab-free line against the six-column CTD schema, and a
projection and a rename both referencing the absent field ts. -/
theorem parse_and_transform_errors_witness :
    ("a" ∈ ["a"] ∧ (pySplitTab "a").length < ctd_format.cols.length ∧
      parse_sampled_lines ["a"] ctd_format = none) ∧
    ("ts" ∈ ["ts", "event_free_text"] ∧ alGet [("x", "1")] "ts" = none ∧
      keep_only_fields [[("x", "1")]] ["ts", "event_free_text"] = none) ∧
    (alGet [("x", "1")] "ts" = none ∧
      rename_field [[("x", "1")]] "ts" "time" = none) :=
  ⟨⟨by decide, by decide,
      parse_and_transform_errors.1 ["a"] ctd_format "a" (by decide)
        (by decide)⟩,
    ⟨by decide, by decide,
      parse_and_transform_errors.2.1 [[("x", "1")]] ["ts", "event_free_text"]
        [("x", "1")] "ts" (by decide) (by decide) (by decide)⟩,
    ⟨by decide,
      parse_and_transform_errors.2.2 [[("x", "1")]] "ts" "time"
        [("x", "1")] (by decide) (by decide)⟩⟩

/-! ## Table writer claims -/

theorem all_keys_list_aux (data : Table) :
    ∀ (acc : List String) (k : String),
      k ∈ data.foldl (fun acc2 kv => acc2 ++ kv.2.map Prod.fst) acc ↔
        k ∈ acc ∨ ∃ kv ∈ data, ∃ p ∈ kv.2, p.1 = k := by
  induction data with
  | nil => simp
  | cons kv rest ih =>
    intro acc k
    rw [List.foldl_cons, ih]
    simp only [List.mem_append, List.mem_map, List.mem_cons]
    constructor
    · rintro ((h | ⟨p, hp, rfl⟩) | ⟨kv2, hkv2, p, hp, hpk⟩)
      · exact Or.inl h
      · exact Or.inr ⟨kv, Or.inl rfl, p, hp, rfl⟩
      · exact Or.inr ⟨kv2, Or.inr hkv2, p, hp, hpk⟩
    · rintro (h | ⟨kv2, hkv2 | hkv2, p, hp, hpk⟩)
      · exact Or.inl (Or.inl h)
      · subst hkv2
        exact Or.inl (Or.inr ⟨p, hp, hpk⟩)
      · exact Or.inr ⟨kv2, hkv2, p, hp, hpk⟩

theorem mem_all_keys_list (data : Table) (k : String) :
    k ∈ all_keys_list data ↔ ∃ kv ∈ data, ∃ p ∈ kv.2, p.1 = k := by
  have h := all_keys_list_aux data [] k
  simpa [all_keys_list] using h

theorem mem_sorted_keys (data : Table) (k : String) :
    k ∈ sorted_keys data ↔
      (k = "time" ∨ (k ≠ "time" ∧ ∃ kv ∈ data, ∃ p ∈ kv.2, p.1 = k)) := by
  unfold sorted_keys
  rw [List.mem_cons, List.mem_filter,
    ((all_keys_list data).dedup.perm_insertionSort
      (fun a b => a ≤ b)).mem_iff,
    List.mem_dedup, mem_all_keys_list]
  constructor
  · rintro (rfl | ⟨hex, hne⟩)
    · exact Or.inl rfl
    · right
      refine ⟨?_, hex⟩
      simpa using hne
  · rintro (rfl | ⟨hne, hex⟩)
    · exact Or.inl rfl
    · right
      refine ⟨hex, ?_⟩
      simpa using hne

theorem sorted_keys_tail_sorted (data : Table) :
    List.Sorted (fun a b : String => a ≤ b) (sorted_keys data).tail := by
  unfold sorted_keys
  exact List.Pairwise.filter _
    (List.sorted_insertionSort (fun a b : String => a ≤ b)
      (all_keys_list data).dedup)

theorem sorted_keys_nodup (data : Table) : (sorted_keys data).Nodup := by
  unfold sorted_keys
  refine List.Nodup.cons ?_ ?_
  · intro hmem
    rw [List.mem_filter] at hmem
    simp at hmem
  · exact List.Nodup.filter _
      (((all_keys_list data).dedup.perm_insertionSort
          (fun a b => a ≤ b)).symm.nodup
        (List.nodup_dedup (all_keys_list data)))

theorem write_rows_eq (data : Table) (cols : List String)
    (times : List String) :
    write_rows data cols times =
      (times.filterMap (fun ts => (alGet data ts).map (render_row cols)),
        times.filter (fun ts => (alGet data ts).isNone)) := by
  induction times with
  | nil => rfl
  | cons ts rest ih =>
    cases hx : alGet data ts with
    | none =>
      simp [write_rows, ih, hx, List.filterMap_cons, List.filter_cons]
    | some record =>
      simp [write_rows, ih, hx, List.filterMap_cons, List.filter_cons]

/-- C8: write_csv emits a header whose first column is time, whose columns
are exactly the union of the field names over all stored records (each
non-time name listed once, the tail sorted lexicographically), then one
data row per timeline timestamp stored in the table, in timeline order,
with fields absent from a record rendered by render_row as the empty
string, and one warning per timeline timestamp absent from the table,
writing no row for it. -/
theorem write_csv_spec (data : Table) (time_iter : List String) :
    (write_csv data time_iter).1.head? = some "time" ∧
    (∀ k, k ∈ (write_csv data time_iter).1 ↔
      (k = "time" ∨ (k ≠ "time" ∧ ∃ kv ∈ data, ∃ p ∈ kv.2, p.1 = k))) ∧
    List.Sorted (fun a b : String => a ≤ b)
      (write_csv data time_iter).1.tail ∧
    (write_csv data time_iter).1.Nodup ∧
    (write_csv data time_iter).2.1 =
      time_iter.filterMap (fun ts =>
        (alGet data ts).map (render_row (sorted_keys data))) ∧
    (write_csv data time_iter).2.2 =
      time_iter.filter (fun ts => (alGet data ts).isNone) := by
  refine ⟨rfl, mem_sorted_keys data, sorted_keys_tail_sorted data,
    sorted_keys_nodup data, ?_, ?_⟩
  · have h := write_rows_eq data (sorted_keys data) time_iter
    calc (write_csv data time_iter).2.1
        = (write_rows data (sorted_keys data) time_iter).1 := rfl
      _ = _ := by rw [h]
  · have h := write_rows_eq data (sorted_keys data) time_iter
    calc (write_csv data time_iter).2.2
        = (write_rows data (sorted_keys data) time_iter).2 := rfl
      _ = _ := by rw [h]

end MergeDive
